import Mathlib

/-!
Verification of src/partial-persistence.py: three partially persistent stack
designs (NaiveStack, SequenceStack, ReversibleSequenceStack).

The embedding models Python list semantics explicitly:
  * indexing l[i] with an Int index wraps negatives (i + len) and raises
    IndexError when out of range (modelled as Option / an error value);
  * slicing l[:v] clamps and never raises;
  * list.pop() removes and returns the last element, raising IndexError on empty;
  * list.append(x) appends at the end.
Stack elements are modelled as Int (the driver only pushes integers).
-/

namespace Persist

/-- A logged mutation: the Python closures `lambda stack: stack.append(value)`
and `lambda stack: stack.pop()` are represented as a tagged variant. -/
inductive Op where
  | push (value : Int)
  | pop
deriving Repr, DecidableEq

/-- The only exception the Python code can raise is IndexError (from list
indexing or list.pop on an empty list). -/
inductive PyErr where
  | indexError
deriving Repr, DecidableEq

/-- Python index normalization: a negative index counts from the end. -/
def pyNorm (len : Nat) (i : Int) : Int := if i < 0 then i + len else i

/-- Python list indexing `l[i]` with an Int index: a negative index counts from
the end; out of range raises IndexError (None here). -/
def pyGet {α : Type} (l : List α) (i : Int) : Option α :=
  if 0 ≤ pyNorm l.length i ∧ pyNorm l.length i < (l.length : Int) then
    l[(pyNorm l.length i).toNat]?
  else none

/-- Python `l.pop()`: removes and returns the last element; IndexError (None)
on the empty list. -/
def pyPop {α : Type} (l : List α) : Option (α × List α) :=
  match l.getLast? with
  | none => none
  | some v => some (v, l.dropLast)

/-- Python slicing `l[:stop]` with an Int bound: a negative bound counts from
the end; the result is clamped and never raises. -/
def pySliceTo {α : Type} (l : List α) (stop : Int) : List α :=
  let s : Int := if stop < 0 then stop + l.length else stop
  l.take s.toNat

/-- Applying one logged closure to a stack: `stack.append(value)` or
`stack.pop()` (the latter raises IndexError on an empty stack; its return
value is discarded by the replay loops). -/
def applyOp : Op → List Int → Option (List Int)
  | Op.push v, s => some (s ++ [v])
  | Op.pop, s => (pyPop s).map Prod.snd

/-! ## NaiveStack -/

/-- Class `NaiveStack`: keeps a full content snapshot per version in `self.stacks`. -/
structure NaiveStack where
  «stacks» : List (List Int)
deriving Repr, DecidableEq

/-- Constructor `NaiveStack.__init__`: `self.stacks = [[]]`. -/
def NaiveStack.init : NaiveStack := ⟨[[]]⟩

/-- Method `NaiveStack.push`: copy `self.stacks[-1]`, append the value, store the
copy.  `self.stacks[-1]` would raise if `stacks` were empty (unreachable from
`init`), hence the Option. -/
def NaiveStack.push (st : NaiveStack) (value : Int) : Option NaiveStack :=
  match pyGet st.stacks (-1) with
  | none => none
  | some top => some ⟨st.stacks ++ [top ++ [value]]⟩

/-- Method `NaiveStack.pop`: copy `self.stacks[-1]`, `new_stack.pop()` (IndexError on
empty, before anything is appended), store the copy, return the value. -/
def NaiveStack.pop (st : NaiveStack) : Option (Int × NaiveStack) :=
  match pyGet st.stacks (-1) with
  | none => none
  | some top =>
    match pyPop top with
    | none => none
    | some (v, rest) => some (v, ⟨st.stacks ++ [rest]⟩)

/-- Method `NaiveStack.read`: `self.stacks[version][index]`, two Python subscripts. -/
def NaiveStack.read (st : NaiveStack) (version index : Int) : Option Int :=
  (pyGet st.stacks version).bind (fun s => pyGet s index)

/-- Drive a NaiveStack through a script of push/pop calls (the popped values
are discarded by the driver). -/
def NaiveStack.run (st : NaiveStack) : List Op → Option NaiveStack
  | [] => some st
  | Op.push v :: rest => (st.push v).bind (fun st' => NaiveStack.run st' rest)
  | Op.pop :: rest => st.pop |>.bind (fun p => NaiveStack.run p.2 rest)

/-! ## SequenceStack -/

/-- Class `SequenceStack`: stores only the sequence of update operations. -/
structure SequenceStack where
  sequence : List Op
deriving Repr, DecidableEq

/-- Constructor `SequenceStack.__init__`: `self.sequence = []`. -/
def SequenceStack.init : SequenceStack := ⟨[]⟩

/-- Method `SequenceStack.push`: append a push closure to the sequence. -/
def SequenceStack.push (st : SequenceStack) (value : Int) : SequenceStack :=
  ⟨st.sequence ++ [Op.push value]⟩

/-- Method `SequenceStack.pop`: append a pop closure to the sequence, unconditionally.
The Python method has no return statement, so it returns None (modelled as the
`none` in the first component). -/
def SequenceStack.pop (st : SequenceStack) : Option Int × SequenceStack :=
  (none, ⟨st.sequence ++ [Op.pop]⟩)

/-- Replay a list of update operations on a stack, sequentially; the first
IndexError aborts the replay. -/
def replayOps : List Op → List Int → Option (List Int)
  | [], s => some s
  | op :: rest, s => (applyOp op s).bind (replayOps rest)

/-- Method `SequenceStack.read_version`: replay `self.sequence[:version]` starting
from the empty stack. -/
def SequenceStack.read_version (st : SequenceStack) (version : Int) : Option (List Int) :=
  replayOps (pySliceTo st.sequence version) []

/-- Method `SequenceStack.read`: `self.read_version(version)[index]`. -/
def SequenceStack.read (st : SequenceStack) (version index : Int) : Option Int :=
  (st.read_version version).bind (fun s => pyGet s index)

/-- Drive a SequenceStack through a script of push/pop calls. -/
def SequenceStack.run (st : SequenceStack) : List Op → SequenceStack
  | [] => st
  | Op.push v :: rest => (st.push v).run rest
  | Op.pop :: rest => (st.pop).2.run rest

/-! ## ReversibleSequenceStack -/

/-- Class `ReversibleSequenceStack`: the sequence stores (operation, inverse) pairs;
`stack`/`version` are the cursor (most recently read content and its version). -/
structure ReversibleSequenceStack where
  sequence : List (Op × Op)
  stack : List Int
  version : Int
deriving Repr, DecidableEq

/-- Constructor `ReversibleSequenceStack.__init__`: empty sequence, empty cached stack,
cached version 0. -/
def ReversibleSequenceStack.init : ReversibleSequenceStack := ⟨[], [], 0⟩

/-- Method `ReversibleSequenceStack.push`: append `(push value, pop)`; the cursor is
not touched. -/
def ReversibleSequenceStack.push (st : ReversibleSequenceStack) (value : Int) :
    ReversibleSequenceStack :=
  { st with sequence := st.sequence ++ [(Op.push value, Op.pop)] }

/-- The forward while loop of `read_version`:
`while self.version < version: op = self.sequence[self.version][0];
self.version += 1; op(self.stack)`.
The loop is encoded by structural recursion on its variant
`(target - version).toNat`, which each iteration decreases by exactly 1
(the cursor moves up one step); `fwdSteps` carries this budget and the budget
reaches 0 exactly when the loop guard fails.  On IndexError, the error
carries the mutated state (Python has already updated `self`). -/
def fwdSteps : Nat → ReversibleSequenceStack → Int →
    Except (PyErr × ReversibleSequenceStack) ReversibleSequenceStack
  | 0, st, _ => .ok st
  | n + 1, st, target =>
    if st.version < target then
      match pyGet st.sequence st.version with
      | none => .error (PyErr.indexError, st)
      | some pair =>
        match applyOp pair.1 st.stack with
        | none => .error (PyErr.indexError, ⟨st.sequence, st.stack, st.version + 1⟩)
        | some s' => fwdSteps n ⟨st.sequence, s', st.version + 1⟩ target
    else .ok st

/-- The forward while loop entered at state `st`. -/
def fwdLoop (st : ReversibleSequenceStack) (target : Int) :
    Except (PyErr × ReversibleSequenceStack) ReversibleSequenceStack :=
  fwdSteps (target - st.version).toNat st target

/-- The backward while loop of `read_version`:
`while self.version > version: op = self.sequence[self.version-1][1];
self.version -= 1; op(self.stack)`, encoded like `fwdSteps` with the variant
`(version - target).toNat`. -/
def bwdSteps : Nat → ReversibleSequenceStack → Int →
    Except (PyErr × ReversibleSequenceStack) ReversibleSequenceStack
  | 0, st, _ => .ok st
  | n + 1, st, target =>
    if target < st.version then
      match pyGet st.sequence (st.version - 1) with
      | none => .error (PyErr.indexError, st)
      | some pair =>
        match applyOp pair.2 st.stack with
        | none => .error (PyErr.indexError, ⟨st.sequence, st.stack, st.version - 1⟩)
        | some s' => bwdSteps n ⟨st.sequence, s', st.version - 1⟩ target
    else .ok st

/-- The backward while loop entered at state `st`. -/
def bwdLoop (st : ReversibleSequenceStack) (target : Int) :
    Except (PyErr × ReversibleSequenceStack) ReversibleSequenceStack :=
  bwdSteps (st.version - target).toNat st target

/-- Method `ReversibleSequenceStack.read_version`: early return on a cache hit, else
walk the cursor forward then backward until it sits at `version`; returns the
cached content together with the updated state. -/
def ReversibleSequenceStack.read_version (st : ReversibleSequenceStack) (version : Int) :
    Except (PyErr × ReversibleSequenceStack) (List Int × ReversibleSequenceStack) :=
  if version = st.version then .ok (st.stack, st)
  else
    match fwdLoop st version with
    | .error e => .error e
    | .ok st1 =>
      match bwdLoop st1 version with
      | .error e => .error e
      | .ok st2 => .ok (st2.stack, st2)

/-- Method `ReversibleSequenceStack.pop`: materialize the latest version
(`self.read_version(len(self.sequence))`), take its `[-1]` element for the
inverse, then append `(pop, push value)`.  The Python method has no return
statement, so it returns None (the `none` in the first component). -/
def ReversibleSequenceStack.pop (st : ReversibleSequenceStack) :
    Except (PyErr × ReversibleSequenceStack) (Option Int × ReversibleSequenceStack) :=
  match st.read_version (st.sequence.length : Int) with
  | .error e => .error e
  | .ok (content, st1) =>
    match pyGet content (-1) with
    | none => .error (PyErr.indexError, st1)
    | some value =>
      .ok (none, { st1 with sequence := st1.sequence ++ [(Op.pop, Op.push value)] })

/-- Method `ReversibleSequenceStack.read`: `self.read_version(version)[index]`. -/
def ReversibleSequenceStack.read (st : ReversibleSequenceStack) (version index : Int) :
    Except (PyErr × ReversibleSequenceStack) (Int × ReversibleSequenceStack) :=
  match st.read_version version with
  | .error e => .error e
  | .ok (content, st1) =>
    match pyGet content index with
    | none => .error (PyErr.indexError, st1)
    | some x => .ok (x, st1)

/-- Drive a ReversibleSequenceStack through a script of push/pop calls. -/
def ReversibleSequenceStack.run (st : ReversibleSequenceStack) :
    List Op → Except (PyErr × ReversibleSequenceStack) ReversibleSequenceStack
  | [] => .ok st
  | Op.push v :: rest => (st.push v).run rest
  | Op.pop :: rest =>
    match st.pop with
    | .error e => .error e
    | .ok (_, st') => st'.run rest

/-! ## Reference semantics

Total reference functions used to state properties: the content reached by a
script of operations, validity of a script (every pop hits a non-empty
stack), and the ideal (operation, inverse) log the reversible design builds. -/

/-- Content after running a script from stack `s`, with pop as dropLast
(meaningful under validity). -/
def specContentFrom (s : List Int) : List Op → List Int
  | [] => s
  | Op.push v :: rest => specContentFrom (s ++ [v]) rest
  | Op.pop :: rest => specContentFrom s.dropLast rest

/-- Content at the latest version after a script from the empty stack. -/
def specContent (ops : List Op) : List Int := specContentFrom [] ops

/-- Does every pop in the script find a non-empty stack, starting from `s`? -/
def validFrom (s : List Int) : List Op → Bool
  | [] => true
  | Op.push v :: rest => validFrom (s ++ [v]) rest
  | Op.pop :: rest => !s.isEmpty && validFrom s.dropLast rest

/-- A script is valid when every pop finds a non-empty stack (no call in the
script would raise). -/
def validOps (ops : List Op) : Bool := validFrom [] ops

/-- The (operation, inverse) pair the reversible design logs for one
operation applied at content `s`. -/
def pairAt (s : List Int) : Op → Op × Op
  | Op.push v => (Op.push v, Op.pop)
  | Op.pop => (Op.pop, Op.push (s.getLast?.getD 0))

/-- The (operation, inverse) log built by the reversible design for a script
run from content `s`. -/
def idealLogFrom (s : List Int) : List Op → List (Op × Op)
  | [] => []
  | Op.push v :: rest => (Op.push v, Op.pop) :: idealLogFrom (s ++ [v]) rest
  | Op.pop :: rest => (Op.pop, Op.push (s.getLast?.getD 0)) :: idealLogFrom s.dropLast rest

/-- The (operation, inverse) log for a script run from the empty stack. -/
def idealLog (ops : List Op) : List (Op × Op) := idealLogFrom [] ops

/-! ## Basic lemmas about the reference semantics -/

theorem specContentFrom_append (l₁ l₂ : List Op) (s : List Int) :
    specContentFrom s (l₁ ++ l₂) = specContentFrom (specContentFrom s l₁) l₂ := by
  induction l₁ generalizing s with
  | nil => rfl
  | cons op rest ih => cases op <;> simp [specContentFrom, ih]

theorem validFrom_append (l₁ l₂ : List Op) (s : List Int) :
    validFrom s (l₁ ++ l₂) = (validFrom s l₁ && validFrom (specContentFrom s l₁) l₂) := by
  induction l₁ generalizing s with
  | nil => rfl
  | cons op rest ih =>
    cases op with
    | push v => simp [validFrom, specContentFrom, ih]
    | pop => simp [validFrom, specContentFrom, ih, Bool.and_assoc]

theorem idealLogFrom_append (l₁ l₂ : List Op) (s : List Int) :
    idealLogFrom s (l₁ ++ l₂) = idealLogFrom s l₁ ++ idealLogFrom (specContentFrom s l₁) l₂ := by
  induction l₁ generalizing s with
  | nil => rfl
  | cons op rest ih => cases op <;> simp [idealLogFrom, specContentFrom, ih]

theorem length_idealLogFrom (ops : List Op) (s : List Int) :
    (idealLogFrom s ops).length = ops.length := by
  induction ops generalizing s with
  | nil => rfl
  | cons op rest ih => cases op <;> simp [idealLogFrom, ih]

theorem length_idealLog (ops : List Op) : (idealLog ops).length = ops.length :=
  length_idealLogFrom ops []

/-! ## Lemmas about the Python list primitives -/

theorem pyGet_natCast {α : Type} (l : List α) (k : Nat) :
    pyGet l (k : Int) = l[k]? := by
  unfold pyGet pyNorm
  have hneg : ¬ ((k : Int) < 0) := by omega
  simp only [hneg, if_false]
  by_cases h : k < l.length
  · rw [if_pos (by omega)]
    congr 1
  · rw [if_neg (by omega), eq_comm, List.getElem?_eq_none]
    omega

theorem pyGet_neg_one {α : Type} (l : List α) : pyGet l (-1) = l.getLast? := by
  unfold pyGet pyNorm
  rcases l with _ | ⟨a, t⟩
  · rfl
  · rw [if_pos (by omega : (-1 : Int) < 0), if_pos (by simp)]
    rw [List.getLast?_eq_getElem?]
    congr 1
    simp

theorem pyGet_none_iff {α : Type} (l : List α) (i : Int) :
    pyGet l i = none ↔ ((l.length : Int) ≤ i ∨ i < -(l.length : Int)) := by
  unfold pyGet pyNorm
  by_cases hneg : i < 0
  · simp only [hneg, if_true]
    by_cases h : (0 : Int) ≤ i + l.length ∧ i + l.length < (l.length : Int)
    · rw [if_pos h]
      have hlt : (i + l.length).toNat < l.length := by omega
      simp [List.getElem?_eq_getElem hlt]
      omega
    · rw [if_neg h]
      constructor
      · intro _; omega
      · intro _; rfl
  · simp only [hneg, if_false]
    by_cases h : (0 : Int) ≤ i ∧ i < (l.length : Int)
    · rw [if_pos h]
      have hlt : i.toNat < l.length := by omega
      simp [List.getElem?_eq_getElem hlt]
      omega
    · rw [if_neg h]
      constructor
      · intro _; omega
      · intro _; rfl

theorem pyPop_concat (l : List Int) (a : Int) : pyPop (l ++ [a]) = some (a, l) := by
  simp [pyPop, List.getLast?_concat, List.dropLast_concat]

theorem pyPop_of_ne_nil (l : List Int) (h : l ≠ []) :
    pyPop l = some (l.getLast h, l.dropLast) := by
  simp [pyPop, List.getLast?_eq_getLast l h]

/-! ## Step lemmas relating one logged operation to adjacent versions -/

theorem validOps_take (ops : List Op) (h : validOps ops = true) (k : Nat) :
    validFrom [] (ops.take k) = true := by
  have hsplit := validFrom_append (ops.take k) (ops.drop k) []
  rw [List.take_append_drop] at hsplit
  rw [validOps, hsplit, Bool.and_eq_true] at h
  exact h.1

theorem specContent_take_succ (ops : List Op) (k : Nat) (hk : k < ops.length) :
    specContent (ops.take (k + 1)) =
      specContentFrom (specContent (ops.take k)) [ops[k]] := by
  rw [specContent, ← List.take_concat_get' ops k hk, specContentFrom_append]
  rfl

theorem valid_at (ops : List Op) (h : validOps ops = true) (k : Nat)
    (hk : k < ops.length) (hpop : ops[k] = Op.pop) :
    specContent (ops.take k) ≠ [] := by
  have h1 := validOps_take ops h (k + 1)
  rw [← List.take_concat_get' ops k hk, validFrom_append, Bool.and_eq_true] at h1
  have h2 := h1.2
  rw [hpop] at h2
  simp only [validFrom, Bool.and_eq_true] at h2
  intro hnil
  rw [show specContentFrom [] (ops.take k) = specContent (ops.take k) from rfl, hnil] at h2
  simp [List.isEmpty] at h2

theorem applyOp_step (ops : List Op) (h : validOps ops = true) (k : Nat)
    (hk : k < ops.length) :
    applyOp ops[k] (specContent (ops.take k)) = some (specContent (ops.take (k + 1))) := by
  cases hop : ops[k] with
  | push v =>
    rw [specContent_take_succ ops k hk, hop]
    simp [applyOp, specContentFrom]
  | pop =>
    have hne := valid_at ops h k hk hop
    rw [specContent_take_succ ops k hk, hop]
    simp [applyOp, pyPop_of_ne_nil _ hne, specContentFrom]

theorem pairAt_fst (s : List Int) (op : Op) : (pairAt s op).1 = op := by
  cases op <;> rfl

theorem applyOp_inv_step (ops : List Op) (h : validOps ops = true) (k : Nat)
    (hk : k < ops.length) :
    applyOp (pairAt (specContent (ops.take k)) ops[k]).2 (specContent (ops.take (k + 1))) =
      some (specContent (ops.take k)) := by
  cases hop : ops[k] with
  | push v =>
    rw [specContent_take_succ ops k hk, hop]
    simp [pairAt, applyOp, specContentFrom, pyPop_concat]
  | pop =>
    have hne := valid_at ops h k hk hop
    rw [specContent_take_succ ops k hk, hop]
    simp only [pairAt, applyOp, specContentFrom]
    rw [List.getLast?_eq_getLast _ hne]
    simp [List.dropLast_append_getLast hne]

theorem idealLogFrom_get (ops : List Op) (s : List Int) (k : Nat)
    (hk : k < ops.length) (hk2 : k < (idealLogFrom s ops).length) :
    (idealLogFrom s ops).get ⟨k, hk2⟩ = pairAt (specContentFrom s (ops.take k)) ops[k] := by
  induction ops generalizing s k with
  | nil => exact absurd hk (by simp)
  | cons op rest ih =>
    cases k with
    | zero => cases op <;> simp [idealLogFrom, pairAt, specContentFrom]
    | succ k' =>
      have hk' : k' < rest.length := by simpa using hk
      cases op with
      | push v =>
        have hk2' : k' < (idealLogFrom (s ++ [v]) rest).length := by
          rw [length_idealLogFrom]; exact hk'
        simpa [idealLogFrom, List.take_succ_cons, specContentFrom] using
          ih (s ++ [v]) k' hk' hk2'
      | pop =>
        have hk2' : k' < (idealLogFrom s.dropLast rest).length := by
          rw [length_idealLogFrom]; exact hk'
        simpa [idealLogFrom, List.take_succ_cons, specContentFrom] using
          ih s.dropLast k' hk' hk2'

theorem idealLog_pyGet (ops : List Op) (k : Nat) (hk : k < ops.length) :
    pyGet (idealLog ops) (k : Int) = some (pairAt (specContent (ops.take k)) ops[k]) := by
  rw [pyGet_natCast]
  have hk2 : k < (idealLogFrom [] ops).length := by rw [length_idealLogFrom]; exact hk
  show (idealLogFrom [] ops)[k]? = _
  have hget := idealLogFrom_get ops [] k hk hk2
  simp only [List.get_eq_getElem] at hget
  rw [List.getElem?_eq_getElem hk2, hget]
  rfl

/-! ## The cursor invariant of the reversible design -/

/-- The invariant tying a reversible stack state to the script that produced
it: the stored sequence is the ideal (operation, inverse) log, the cursor
version lies in [0, latest], and the cached content is the true content at
the cursor version. -/
def RGood (ops : List Op) (st : ReversibleSequenceStack) : Prop :=
  st.sequence = idealLog ops ∧ 0 ≤ st.version ∧ st.version ≤ (ops.length : Int) ∧
  st.stack = specContent (ops.take st.version.toNat)

theorem fwdLoop_noop (st : ReversibleSequenceStack) (target : Int)
    (h : target ≤ st.version) : fwdLoop st target = .ok st := by
  rw [fwdLoop, show (target - st.version).toNat = 0 from by omega, fwdSteps]

theorem bwdLoop_noop (st : ReversibleSequenceStack) (target : Int)
    (h : st.version ≤ target) : bwdLoop st target = .ok st := by
  rw [bwdLoop, show (st.version - target).toNat = 0 from by omega, bwdSteps]

theorem fwdSteps_ok (gap : Nat) (ops : List Op) (target : Int)
    (hv : validOps ops = true) (h2 : target ≤ (ops.length : Int)) :
    ∀ st : ReversibleSequenceStack, RGood ops st → st.version ≤ target →
    (target - st.version).toNat = gap →
    fwdSteps gap st target =
      .ok ⟨st.sequence, specContent (ops.take target.toNat), target⟩ := by
  induction gap with
  | zero =>
    intro st hg h1 hgap
    obtain ⟨hseq, hv0, hvle, hstack⟩ := hg
    have htv : target = st.version := by omega
    rw [fwdSteps]
    cases st with
    | mk seq stk ver =>
      simp only at hstack htv ⊢
      rw [hstack, htv]
  | succ gap' ih =>
    intro st hg h1 hgap
    obtain ⟨hseq, hv0, hvle, hstack⟩ := hg
    have hlt : st.version < target := by omega
    have hkv : ((st.version.toNat : Nat) : Int) = st.version := by omega
    have hklen : st.version.toNat < ops.length := by omega
    rw [fwdSteps, if_pos hlt, hseq, ← hkv, idealLog_pyGet ops st.version.toNat hklen]
    dsimp only
    rw [pairAt_fst, hstack, applyOp_step ops hv st.version.toNat hklen]
    dsimp only
    have hg' : RGood ops ⟨idealLog ops, specContent (ops.take (st.version.toNat + 1)),
        ((st.version.toNat : Int) + 1)⟩ := by
      refine ⟨rfl, by dsimp only ; omega, by dsimp only ; omega, ?_⟩
      dsimp only
      have htn : ((st.version.toNat : Int) + 1).toNat = st.version.toNat + 1 := by omega
      rw [htn]
    exact ih ⟨idealLog ops, specContent (ops.take (st.version.toNat + 1)),
      ((st.version.toNat : Int) + 1)⟩ hg' (by dsimp only ; omega) (by dsimp only ; omega)

theorem fwdLoop_ok (gap : Nat) (ops : List Op) (target : Int)
    (hv : validOps ops = true) (h2 : target ≤ (ops.length : Int)) :
    ∀ st : ReversibleSequenceStack, RGood ops st → st.version ≤ target →
    (target - st.version).toNat = gap →
    fwdLoop st target = .ok ⟨st.sequence, specContent (ops.take target.toNat), target⟩ := by
  intro st hg h1 hgap
  rw [fwdLoop, hgap]
  exact fwdSteps_ok gap ops target hv h2 st hg h1 hgap

theorem bwdSteps_ok (gap : Nat) (ops : List Op) (target : Int)
    (hv : validOps ops = true) (h1 : 0 ≤ target) :
    ∀ st : ReversibleSequenceStack, RGood ops st → target ≤ st.version →
    (st.version - target).toNat = gap →
    bwdSteps gap st target =
      .ok ⟨st.sequence, specContent (ops.take target.toNat), target⟩ := by
  induction gap with
  | zero =>
    intro st hg h2 hgap
    obtain ⟨hseq, hv0, hvle, hstack⟩ := hg
    have htv : target = st.version := by omega
    rw [bwdSteps]
    cases st with
    | mk seq stk ver =>
      simp only at hstack htv ⊢
      rw [hstack, htv]
  | succ gap' ih =>
    intro st hg h2 hgap
    obtain ⟨hseq, hv0, hvle, hstack⟩ := hg
    have hlt : target < st.version := by omega
    have hpos : 1 ≤ st.version := by omega
    have hk : st.version.toNat - 1 < ops.length := by omega
    have hkv : ((st.version.toNat - 1 : Nat) : Int) = st.version - 1 := by omega
    rw [bwdSteps, if_pos hlt, ← hkv, hseq, idealLog_pyGet ops (st.version.toNat - 1) hk]
    dsimp only
    have hsucc : st.version.toNat - 1 + 1 = st.version.toNat := by omega
    have hinv := applyOp_inv_step ops hv (st.version.toNat - 1) hk
    rw [hsucc] at hinv
    rw [hstack, hinv]
    dsimp only
    have hg' : RGood ops ⟨idealLog ops, specContent (ops.take (st.version.toNat - 1)),
        ((st.version.toNat - 1 : Nat) : Int)⟩ := by
      refine ⟨rfl, by dsimp only ; omega, by dsimp only ; omega, ?_⟩
      dsimp only
      have htn : (((st.version.toNat - 1 : Nat) : Int)).toNat = st.version.toNat - 1 := by omega
      rw [htn]
    exact ih ⟨idealLog ops, specContent (ops.take (st.version.toNat - 1)),
      ((st.version.toNat - 1 : Nat) : Int)⟩ hg' (by dsimp only ; omega) (by dsimp only ; omega)

theorem bwdLoop_ok (gap : Nat) (ops : List Op) (target : Int)
    (hv : validOps ops = true) (h1 : 0 ≤ target) :
    ∀ st : ReversibleSequenceStack, RGood ops st → target ≤ st.version →
    (st.version - target).toNat = gap →
    bwdLoop st target = .ok ⟨st.sequence, specContent (ops.take target.toNat), target⟩ := by
  intro st hg h2 hgap
  rw [bwdLoop, hgap]
  exact bwdSteps_ok gap ops target hv h1 st hg h2 hgap

theorem read_version_ok (ops : List Op) (st : ReversibleSequenceStack) (v : Int)
    (hv : validOps ops = true) (hg : RGood ops st) (h1 : 0 ≤ v)
    (h2 : v ≤ (ops.length : Int)) :
    st.read_version v =
      .ok (specContent (ops.take v.toNat),
           ⟨st.sequence, specContent (ops.take v.toNat), v⟩) := by
  obtain ⟨hseq, hv0, hvle, hstack⟩ := hg
  rw [ReversibleSequenceStack.read_version]
  by_cases heq : v = st.version
  · rw [if_pos heq]
    cases st with
    | mk seq stk ver =>
      simp only at hstack heq ⊢
      rw [hstack, heq]
  · rw [if_neg heq]
    by_cases hdir : st.version ≤ v
    · rw [fwdLoop_ok (v - st.version).toNat ops v hv h2 st ⟨hseq, hv0, hvle, hstack⟩ hdir rfl]
      dsimp only
      rw [bwdLoop_noop _ _ (by dsimp only ; omega)]
    · rw [fwdLoop_noop _ _ (by omega)]
      dsimp only
      rw [bwdLoop_ok (st.version - v).toNat ops v hv h1 st ⟨hseq, hv0, hvle, hstack⟩
        (by omega) rfl]

theorem RGood_init : RGood [] ReversibleSequenceStack.init :=
  ⟨rfl, le_refl 0, by simp [ReversibleSequenceStack.init], rfl⟩

theorem validOps_of_append_left (l₁ l₂ : List Op) (h : validOps (l₁ ++ l₂) = true) :
    validOps l₁ = true := by
  rw [validOps, validFrom_append, Bool.and_eq_true] at h
  exact h.1

theorem valid_snoc_pop (ops : List Op) (h : validOps (ops ++ [Op.pop]) = true) :
    validOps ops = true ∧ specContent ops ≠ [] := by
  rw [validOps, validFrom_append, Bool.and_eq_true] at h
  refine ⟨h.1, ?_⟩
  have h2 := h.2
  simp only [validFrom, Bool.and_eq_true] at h2
  intro hnil
  rw [show specContentFrom [] ops = specContent ops from rfl, hnil] at h2
  simp [List.isEmpty] at h2

theorem rpush_good (ops : List Op) (st : ReversibleSequenceStack) (v : Int)
    (hg : RGood ops st) : RGood (ops ++ [Op.push v]) (st.push v) := by
  obtain ⟨hseq, hv0, hvle, hstack⟩ := hg
  refine ⟨?_, hv0, ?_, ?_⟩
  · show st.sequence ++ [(Op.push v, Op.pop)] = idealLog (ops ++ [Op.push v])
    rw [hseq]
    show idealLogFrom [] ops ++ _ = idealLogFrom [] (ops ++ [Op.push v])
    rw [idealLogFrom_append]
    rfl
  · show st.version ≤ ((ops ++ [Op.push v]).length : Int)
    simp only [List.length_append, List.length_cons, List.length_nil]
    omega
  · show st.stack = specContent ((ops ++ [Op.push v]).take st.version.toNat)
    rw [List.take_append_of_le_length (by omega), hstack]

theorem rpop_ok (ops : List Op) (st : ReversibleSequenceStack)
    (hv : validOps (ops ++ [Op.pop]) = true) (hg : RGood ops st) :
    st.pop = .ok (none,
      ⟨idealLog (ops ++ [Op.pop]), specContent ops, (ops.length : Int)⟩) ∧
    RGood (ops ++ [Op.pop])
      ⟨idealLog (ops ++ [Op.pop]), specContent ops, (ops.length : Int)⟩ := by
  obtain ⟨hvops, hne⟩ := valid_snoc_pop ops hv
  obtain ⟨hseq, hv0, hvle, hstack⟩ := hg
  have hglast : (specContent ops).getLast? = some ((specContent ops).getLast hne) :=
    List.getLast?_eq_getLast _ hne
  constructor
  · rw [ReversibleSequenceStack.pop]
    have hlen : ((st.sequence.length : Nat) : Int) = (ops.length : Int) := by
      rw [hseq, length_idealLog]
    rw [hlen, read_version_ok ops st (ops.length : Int) hvops ⟨hseq, hv0, hvle, hstack⟩
      (by omega) (by omega)]
    dsimp only
    have htn : ((ops.length : Int)).toNat = ops.length := by omega
    rw [htn, List.take_length, pyGet_neg_one, hglast]
    dsimp only
    have hseq2 : st.sequence ++ [(Op.pop, Op.push ((specContent ops).getLast hne))] =
        idealLog (ops ++ [Op.pop]) := by
      rw [hseq]
      show idealLogFrom [] ops ++ _ = idealLogFrom [] (ops ++ [Op.pop])
      rw [idealLogFrom_append]
      show _ = idealLogFrom [] ops ++
        [(Op.pop, Op.push ((specContentFrom [] ops).getLast?.getD 0))]
      rw [show specContentFrom [] ops = specContent ops from rfl, hglast]
      rfl
    rw [hseq2]
  · refine ⟨rfl, by dsimp only ; omega, ?_, ?_⟩
    · show ((ops.length : Nat) : Int) ≤ ((ops ++ [Op.pop]).length : Int)
      simp only [List.length_append, List.length_cons, List.length_nil]
      omega
    · show specContent ops = specContent ((ops ++ [Op.pop]).take ((ops.length : Int)).toNat)
      have htn : ((ops.length : Int)).toNat = ops.length := by omega
      rw [htn, List.take_left]

theorem rrun_good : ∀ (rest pre : List Op) (st : ReversibleSequenceStack),
    validOps (pre ++ rest) = true → RGood pre st →
    ∃ st', ReversibleSequenceStack.run st rest = .ok st' ∧ RGood (pre ++ rest) st' := by
  intro rest
  induction rest with
  | nil =>
    intro pre st hv hg
    exact ⟨st, rfl, by simpa using hg⟩
  | cons op rest' ih =>
    intro pre st hv hg
    have hassoc : pre ++ (op :: rest') = (pre ++ [op]) ++ rest' := by simp
    cases op with
    | push v =>
      have hv' : validOps ((pre ++ [Op.push v]) ++ rest') = true := by
        rw [← hassoc]; exact hv
      obtain ⟨st', hrun, hgood⟩ :=
        ih (pre ++ [Op.push v]) (st.push v) hv' (rpush_good pre st v hg)
      exact ⟨st', hrun, by rw [hassoc]; exact hgood⟩
    | pop =>
      have hv' : validOps ((pre ++ [Op.pop]) ++ rest') = true := by
        rw [← hassoc]; exact hv
      have hvp : validOps (pre ++ [Op.pop]) = true := validOps_of_append_left _ _ hv'
      obtain ⟨hpop, hgoodp⟩ := rpop_ok pre st hvp hg
      obtain ⟨st', hrun, hgood⟩ := ih (pre ++ [Op.pop]) _ hv' hgoodp
      refine ⟨st', ?_, by rw [hassoc]; exact hgood⟩
      rw [ReversibleSequenceStack.run, hpop]
      dsimp only
      exact hrun

theorem rrun_init (ops : List Op) (hv : validOps ops = true) :
    ∃ st, ReversibleSequenceStack.run ReversibleSequenceStack.init ops = .ok st ∧
      RGood ops st := by
  have := rrun_good ops [] ReversibleSequenceStack.init (by simpa using hv) RGood_init
  simpa using this

/-! ## SequenceStack correctness machinery -/

theorem pySliceTo_natCast {α : Type} (l : List α) (v : Nat) :
    pySliceTo l (v : Int) = l.take v := by
  unfold pySliceTo
  have hneg : ¬ ((v : Int) < 0) := by omega
  simp only [hneg, if_false]
  congr 1

theorem pySliceTo_of_length_le {α : Type} (l : List α) (stop : Int)
    (h : (l.length : Int) ≤ stop) : pySliceTo l stop = l := by
  unfold pySliceTo
  have hneg : ¬ (stop < 0) := by omega
  simp only [hneg, if_false]
  apply List.take_of_length_le
  omega

theorem srun_sequence (ops : List Op) : ∀ st : SequenceStack,
    (SequenceStack.run st ops).sequence = st.sequence ++ ops := by
  induction ops with
  | nil => intro st; simp [SequenceStack.run]
  | cons op rest ih =>
    intro st
    cases op with
    | push v =>
      rw [SequenceStack.run, ih]
      simp [SequenceStack.push]
    | pop =>
      rw [SequenceStack.run, ih]
      simp [SequenceStack.pop]

theorem srun_init (ops : List Op) :
    SequenceStack.run SequenceStack.init ops = ⟨ops⟩ := by
  have h := srun_sequence ops SequenceStack.init
  cases hrun : SequenceStack.run SequenceStack.init ops with
  | mk seq =>
    rw [hrun] at h
    simp only [SequenceStack.init] at h
    rw [h]
    rfl

theorem replayOps_valid (l : List Op) : ∀ s : List Int, validFrom s l = true →
    replayOps l s = some (specContentFrom s l) := by
  induction l with
  | nil => intro s _; rfl
  | cons op rest ih =>
    intro s hval
    cases op with
    | push v =>
      rw [validFrom] at hval
      rw [replayOps, specContentFrom]
      show (applyOp (Op.push v) s).bind (replayOps rest) = _
      rw [show applyOp (Op.push v) s = some (s ++ [v]) from rfl]
      exact ih (s ++ [v]) hval
    | pop =>
      rw [validFrom, Bool.and_eq_true] at hval
      have hne : s ≠ [] := by
        intro hnil
        rw [hnil] at hval
        simp [List.isEmpty] at hval
      rw [replayOps, specContentFrom]
      show (applyOp Op.pop s).bind (replayOps rest) = _
      rw [show applyOp Op.pop s = (pyPop s).map Prod.snd from rfl, pyPop_of_ne_nil s hne]
      exact ih s.dropLast hval.2

theorem sread_version_ok (ops : List Op) (hv : validOps ops = true) (v : Nat) :
    SequenceStack.read_version ⟨ops⟩ (v : Int) = some (specContent (ops.take v)) := by
  rw [SequenceStack.read_version]
  show replayOps (pySliceTo ops (v : Int)) [] = _
  rw [pySliceTo_natCast]
  exact replayOps_valid (ops.take v) [] (validOps_take ops hv v)

/-! ## NaiveStack correctness machinery -/

/-- The list of all version contents for a script: entry v is the content at
version v. -/
def versionContents (ops : List Op) : List (List Int) :=
  (List.range (ops.length + 1)).map (fun v => specContent (ops.take v))

/-- Invariant tying a naive stack state to the script that produced it. -/
def NGood (ops : List Op) (st : NaiveStack) : Prop :=
  st.stacks = versionContents ops

theorem NGood_init : NGood [] NaiveStack.init := by
  show NaiveStack.init.stacks = versionContents []
  rfl

theorem versionContents_snoc (ops : List Op) (op : Op) :
    versionContents (ops ++ [op]) = versionContents ops ++ [specContent (ops ++ [op])] := by
  unfold versionContents
  have hlen : (ops ++ [op]).length = ops.length + 1 := by simp
  rw [hlen, List.range_succ, List.map_append]
  congr 1
  · apply List.map_congr_left
    intro v hv
    rw [List.mem_range] at hv
    rw [List.take_append_of_le_length (by omega)]
  · simp only [List.map_cons, List.map_nil]
    rw [← hlen, List.take_length]

theorem getLast?_versionContents (ops : List Op) :
    (versionContents ops).getLast? = some (specContent ops) := by
  rw [List.getLast?_eq_getElem?]
  have hlen : (versionContents ops).length = ops.length + 1 := by
    simp [versionContents]
  rw [hlen]
  simp only [Nat.add_sub_cancel]
  unfold versionContents
  rw [List.getElem?_map]
  rw [List.getElem?_range (by omega)]
  simp [List.take_length]

theorem pyGet_versionContents (ops : List Op) (v : Nat) (hvle : v ≤ ops.length) :
    pyGet (versionContents ops) (v : Int) = some (specContent (ops.take v)) := by
  rw [pyGet_natCast]
  unfold versionContents
  rw [List.getElem?_map, List.getElem?_range (by omega)]
  rfl

theorem npush_ok (ops : List Op) (st : NaiveStack) (v : Int) (hg : NGood ops st) :
    st.push v = some ⟨versionContents (ops ++ [Op.push v])⟩ := by
  rw [NaiveStack.push, hg, pyGet_neg_one, getLast?_versionContents]
  dsimp only
  rw [versionContents_snoc]
  have hc : specContent (ops ++ [Op.push v]) = specContent ops ++ [v] := by
    show specContentFrom [] (ops ++ [Op.push v]) = _
    rw [specContentFrom_append]
    rfl
  rw [hc]

theorem npop_ok (ops : List Op) (st : NaiveStack) (hne : specContent ops ≠ [])
    (hg : NGood ops st) :
    st.pop = some ((specContent ops).getLast hne,
      ⟨versionContents (ops ++ [Op.pop])⟩) := by
  rw [NaiveStack.pop, hg, pyGet_neg_one, getLast?_versionContents]
  dsimp only
  rw [pyPop_of_ne_nil _ hne]
  dsimp only
  rw [versionContents_snoc]
  have hc : specContent (ops ++ [Op.pop]) = (specContent ops).dropLast := by
    show specContentFrom [] (ops ++ [Op.pop]) = _
    rw [specContentFrom_append]
    rfl
  rw [hc]

theorem nrun_good : ∀ (rest pre : List Op) (st : NaiveStack),
    validOps (pre ++ rest) = true → NGood pre st →
    ∃ st', NaiveStack.run st rest = some st' ∧ NGood (pre ++ rest) st' := by
  intro rest
  induction rest with
  | nil =>
    intro pre st hv hg
    exact ⟨st, rfl, by simpa using hg⟩
  | cons op rest' ih =>
    intro pre st hv hg
    have hassoc : pre ++ (op :: rest') = (pre ++ [op]) ++ rest' := by simp
    cases op with
    | push v =>
      have hv' : validOps ((pre ++ [Op.push v]) ++ rest') = true := by
        rw [← hassoc]; exact hv
      obtain ⟨st', hrun, hgood⟩ := ih (pre ++ [Op.push v])
        ⟨versionContents (pre ++ [Op.push v])⟩ hv' rfl
      refine ⟨st', ?_, by rw [hassoc]; exact hgood⟩
      rw [NaiveStack.run, npush_ok pre st v hg]
      exact hrun
    | pop =>
      have hv' : validOps ((pre ++ [Op.pop]) ++ rest') = true := by
        rw [← hassoc]; exact hv
      have hvp : validOps (pre ++ [Op.pop]) = true := validOps_of_append_left _ _ hv'
      obtain ⟨hvpre, hne⟩ := valid_snoc_pop pre hvp
      obtain ⟨st', hrun, hgood⟩ := ih (pre ++ [Op.pop])
        ⟨versionContents (pre ++ [Op.pop])⟩ hv' rfl
      refine ⟨st', ?_, by rw [hassoc]; exact hgood⟩
      rw [NaiveStack.run, npop_ok pre st hne hg]
      exact hrun

theorem nrun_init (ops : List Op) (hv : validOps ops = true) :
    ∃ st, NaiveStack.run NaiveStack.init ops = some st ∧ NGood ops st := by
  have := nrun_good ops [] NaiveStack.init (by simpa using hv) NGood_init
  simpa using this

/-! ## Fuel-bounded variants of the read_version loops

Used to state termination: each loop iteration moves the cursor one step
toward the target, so fuel equal to the initial distance suffices. `none`
means the fuel ran out with the loop still running. -/

/-- The forward while loop, executing at most `fuel` iterations. -/
def fwdLoopF (fuel : Nat) (st : ReversibleSequenceStack) (target : Int) :
    Option (Except (PyErr × ReversibleSequenceStack) ReversibleSequenceStack) :=
  if st.version < target then
    match fuel with
    | 0 => none
    | fuel' + 1 =>
      match pyGet st.sequence st.version with
      | none => some (.error (PyErr.indexError, st))
      | some pair =>
        match applyOp pair.1 st.stack with
        | none => some (.error (PyErr.indexError, ⟨st.sequence, st.stack, st.version + 1⟩))
        | some s' => fwdLoopF fuel' ⟨st.sequence, s', st.version + 1⟩ target
  else some (.ok st)

/-- The backward while loop, executing at most `fuel` iterations. -/
def bwdLoopF (fuel : Nat) (st : ReversibleSequenceStack) (target : Int) :
    Option (Except (PyErr × ReversibleSequenceStack) ReversibleSequenceStack) :=
  if target < st.version then
    match fuel with
    | 0 => none
    | fuel' + 1 =>
      match pyGet st.sequence (st.version - 1) with
      | none => some (.error (PyErr.indexError, st))
      | some pair =>
        match applyOp pair.2 st.stack with
        | none => some (.error (PyErr.indexError, ⟨st.sequence, st.stack, st.version - 1⟩))
        | some s' => bwdLoopF fuel' ⟨st.sequence, s', st.version - 1⟩ target
  else some (.ok st)

/-- Function `read_version` with both loops bounded by `fuel` iterations each. -/
def read_versionF (fuel : Nat) (st : ReversibleSequenceStack) (version : Int) :
    Option (Except (PyErr × ReversibleSequenceStack) (List Int × ReversibleSequenceStack)) :=
  if version = st.version then some (.ok (st.stack, st))
  else
    match fwdLoopF fuel st version with
    | none => none
    | some (.error e) => some (.error e)
    | some (.ok st1) =>
      match bwdLoopF fuel st1 version with
      | none => none
      | some (.error e) => some (.error e)
      | some (.ok st2) => some (.ok (st2.stack, st2))

theorem fwdLoopF_complete (fuel : Nat) : ∀ (st : ReversibleSequenceStack) (target : Int),
    (target - st.version).toNat ≤ fuel →
    fwdLoopF fuel st target = some (fwdLoop st target) := by
  induction fuel with
  | zero =>
    intro st target hf
    have hge : target ≤ st.version := by omega
    rw [fwdLoopF, if_neg (by omega), fwdLoop_noop st target hge]
  | succ fuel' ih =>
    intro st target hf
    by_cases hlt : st.version < target
    · obtain ⟨g', hgap⟩ : ∃ g', (target - st.version).toNat = g' + 1 :=
        ⟨(target - st.version).toNat - 1, by omega⟩
      rw [fwdLoopF, if_pos hlt, fwdLoop, hgap, fwdSteps, if_pos hlt]
      cases hget : pyGet st.sequence st.version with
      | none => rfl
      | some pair =>
        dsimp only
        cases happ : applyOp pair.1 st.stack with
        | none => rfl
        | some s' =>
          dsimp only
          rw [ih ⟨st.sequence, s', st.version + 1⟩ target (by dsimp only ; omega), fwdLoop,
            show (target - (⟨st.sequence, s', st.version + 1⟩ :
              ReversibleSequenceStack).version).toNat = g' from by dsimp only ; omega]
    · rw [fwdLoopF, if_neg hlt, fwdLoop_noop st target (by omega)]

theorem bwdLoopF_complete (fuel : Nat) : ∀ (st : ReversibleSequenceStack) (target : Int),
    (st.version - target).toNat ≤ fuel →
    bwdLoopF fuel st target = some (bwdLoop st target) := by
  induction fuel with
  | zero =>
    intro st target hf
    have hge : st.version ≤ target := by omega
    rw [bwdLoopF, if_neg (by omega), bwdLoop_noop st target hge]
  | succ fuel' ih =>
    intro st target hf
    by_cases hlt : target < st.version
    · obtain ⟨g', hgap⟩ : ∃ g', (st.version - target).toNat = g' + 1 :=
        ⟨(st.version - target).toNat - 1, by omega⟩
      rw [bwdLoopF, if_pos hlt, bwdLoop, hgap, bwdSteps, if_pos hlt]
      cases hget : pyGet st.sequence (st.version - 1) with
      | none => rfl
      | some pair =>
        dsimp only
        cases happ : applyOp pair.2 st.stack with
        | none => rfl
        | some s' =>
          dsimp only
          rw [ih ⟨st.sequence, s', st.version - 1⟩ target (by dsimp only ; omega), bwdLoop,
            show ((⟨st.sequence, s', st.version - 1⟩ :
              ReversibleSequenceStack).version - target).toNat = g' from by dsimp only ; omega]
    · rw [bwdLoopF, if_neg hlt, bwdLoop_noop st target (by omega)]

theorem read_versionF_ok (ops : List Op) (st : ReversibleSequenceStack) (v : Int)
    (hv : validOps ops = true) (hg : RGood ops st) (h0 : 0 ≤ v)
    (h2 : v ≤ (ops.length : Int)) :
    read_versionF ((st.version - v).natAbs) st v = some (st.read_version v) := by
  rw [read_versionF, ReversibleSequenceStack.read_version]
  obtain ⟨hseq, hv0, hvle, hstack⟩ := hg
  by_cases heq : v = st.version
  · rw [if_pos heq, if_pos heq]
  · rw [if_neg heq, if_neg heq]
    by_cases hdir : st.version ≤ v
    · rw [fwdLoopF_complete _ st v (by omega),
        fwdLoop_ok (v - st.version).toNat ops v hv h2 st ⟨hseq, hv0, hvle, hstack⟩ hdir rfl]
      dsimp only
      rw [bwdLoopF_complete _ _ v (by dsimp only ; omega),
        bwdLoop_noop _ v (by dsimp only ; omega)]
    · rw [fwdLoopF_complete _ st v (by omega), fwdLoop_noop st v (by omega)]
      dsimp only
      rw [bwdLoopF_complete _ st v (by omega),
        bwdLoop_ok (st.version - v).toNat ops v hv h0 st ⟨hseq, hv0, hvle, hstack⟩
          (by omega) rfl]

theorem fwdSteps_overflow (gap : Nat) (ops : List Op) (target : Int)
    (hv : validOps ops = true) (hgt : (ops.length : Int) < target) :
    ∀ (st : ReversibleSequenceStack) (fuel : Nat), RGood ops st →
    ((ops.length : Int) - st.version).toNat = gap → gap < fuel →
    fwdSteps fuel st target =
      .error (PyErr.indexError, ⟨st.sequence, specContent ops, (ops.length : Int)⟩) := by
  induction gap with
  | zero =>
    intro st fuel hg hgap hfuel
    obtain ⟨hseq, hv0, hvle, hstack⟩ := hg
    have hver : st.version = (ops.length : Int) := by omega
    obtain ⟨f', hf'⟩ : ∃ f', fuel = f' + 1 := ⟨fuel - 1, by omega⟩
    rw [hf', fwdSteps, if_pos (by omega)]
    have hnone : pyGet st.sequence st.version = none := by
      rw [hseq, hver, pyGet_natCast]
      exact List.getElem?_eq_none (by rw [length_idealLog])
    rw [hnone]
    cases st with
    | mk seq stk ver =>
      simp only at hstack hver ⊢
      rw [hstack, hver]
      have htn : ((ops.length : Int)).toNat = ops.length := by omega
      rw [htn, List.take_length]
  | succ gap' ih =>
    intro st fuel hg hgap hfuel
    obtain ⟨hseq, hv0, hvle, hstack⟩ := hg
    have hlt : st.version < (ops.length : Int) := by omega
    have hkv : ((st.version.toNat : Nat) : Int) = st.version := by omega
    have hklen : st.version.toNat < ops.length := by omega
    obtain ⟨f', hf'⟩ : ∃ f', fuel = f' + 1 := ⟨fuel - 1, by omega⟩
    rw [hf', fwdSteps, if_pos (by omega), hseq, ← hkv,
      idealLog_pyGet ops st.version.toNat hklen]
    dsimp only
    rw [pairAt_fst, hstack, applyOp_step ops hv st.version.toNat hklen]
    dsimp only
    have hg' : RGood ops ⟨idealLog ops, specContent (ops.take (st.version.toNat + 1)),
        ((st.version.toNat : Int) + 1)⟩ := by
      refine ⟨rfl, by dsimp only ; omega, by dsimp only ; omega, ?_⟩
      dsimp only
      have htn : ((st.version.toNat : Int) + 1).toNat = st.version.toNat + 1 := by omega
      rw [htn]
    exact ih ⟨idealLog ops, specContent (ops.take (st.version.toNat + 1)),
      ((st.version.toNat : Int) + 1)⟩ f' hg' (by dsimp only ; omega) (by omega)

theorem fwdLoop_overflow (ops : List Op) (target : Int)
    (hv : validOps ops = true) (hgt : (ops.length : Int) < target) :
    ∀ st : ReversibleSequenceStack, RGood ops st →
    fwdLoop st target =
      .error (PyErr.indexError, ⟨st.sequence, specContent ops, (ops.length : Int)⟩) := by
  intro st hg
  have hv0 := hg.2.1
  have hvle := hg.2.2.1
  rw [fwdLoop]
  exact fwdSteps_overflow ((ops.length : Int) - st.version).toNat ops target hv hgt st
    ((target - st.version).toNat) hg rfl (by omega)

theorem read_version_overflow (ops : List Op) (st : ReversibleSequenceStack) (v : Int)
    (hv : validOps ops = true) (hg : RGood ops st) (hgt : (ops.length : Int) < v) :
    st.read_version v =
      .error (PyErr.indexError, ⟨st.sequence, specContent ops, (ops.length : Int)⟩) := by
  have hvle := hg.2.2.1
  rw [ReversibleSequenceStack.read_version, if_neg (by omega),
    fwdLoop_overflow ops v hv hgt st hg]

theorem valid_snoc_pop_of (ops : List Op) (hv : validOps ops = true)
    (hne : specContent ops ≠ []) : validOps (ops ++ [Op.pop]) = true := by
  rw [validOps, validFrom_append, Bool.and_eq_true]
  refine ⟨hv, ?_⟩
  have hfalse : (specContentFrom [] ops).isEmpty = false := by
    cases hc : specContentFrom [] ops with
    | nil => exact absurd hc hne
    | cons a t => rfl
  simp [validFrom, hfalse]

/-! ## Observation helpers: the experiments the claims talk about -/

/-- Content stored for version v by the naive design after a script
(`self.stacks[version]`). -/
def naiveContentAt (ops : List Op) (v : Int) : Option (List Int) :=
  (NaiveStack.run NaiveStack.init ops).bind (fun st => pyGet st.stacks v)

/-- Calling `read_version(v)` on the sequence design after a script. -/
def seqContentAt (ops : List Op) (v : Int) : Option (List Int) :=
  (SequenceStack.run SequenceStack.init ops).read_version v

/-- Calling `read_version(v)` on the reversible design after a script (None when an
IndexError was raised along the way). -/
def revContentAt (ops : List Op) (v : Int) : Option (List Int) :=
  match ReversibleSequenceStack.run ReversibleSequenceStack.init ops with
  | .error _ => none
  | .ok st =>
    match st.read_version v with
    | .error _ => none
    | .ok (c, _) => some c

/-- The driver script at the bottom of the source file. -/
def scenarioOps : List Op :=
  [Op.push 1, Op.push 2, Op.push 3, Op.pop, Op.pop, Op.push 7]

/-- The contents the spec expects for versions 0..6 of the scenario. -/
def expectedContents : List (List Int) :=
  [[], [1], [1, 2], [1, 2, 3], [1, 2], [1], [1, 7]]

/-- Read a list of versions in order on the reversible design, threading the
cursor state, collecting the returned contents. -/
def readRun : ReversibleSequenceStack → List Int →
    Option (List (List Int) × ReversibleSequenceStack)
  | st, [] => some ([], st)
  | st, v :: rest =>
    match st.read_version v with
    | .error _ => none
    | .ok (c, st') => (readRun st' rest).map (fun p => (c :: p.1, p.2))

/-- Run the scenario on the reversible design, then read versions 0..6
ascending and 6..0 descending, returning both content sequences. -/
def revScenarioReads : Option (List (List Int) × List (List Int)) :=
  match ReversibleSequenceStack.run ReversibleSequenceStack.init scenarioOps with
  | .error _ => none
  | .ok st =>
    match readRun st [0, 1, 2, 3, 4, 5, 6] with
    | none => none
    | some (up, st1) =>
      match readRun st1 [6, 5, 4, 3, 2, 1, 0] with
      | none => none
      | some (down, _) => some (up, down)

/-- Run a script on the reversible design, then pop once, returning the
resulting state. -/
def revPopAfter (ops : List Op) : Option ReversibleSequenceStack :=
  match ReversibleSequenceStack.run ReversibleSequenceStack.init ops with
  | .error _ => none
  | .ok st =>
    match st.pop with
    | .error _ => none
    | .ok (_, st') => some st'

/-! ## Claims -/

/-- C1: for every valid script of push/pop calls applied identically to the
three designs (NaiveStack, SequenceStack, ReversibleSequenceStack) and every
version v in [0, latest], the naive design's stored content at v, the
sequence design's read_version(v) and the reversible design's read_version(v)
all return the same content: the replay of the first v operations. -/
theorem claim_C1_equivalence (ops : List Op) (hv : validOps ops = true) (v : Nat)
    (hvle : v ≤ ops.length) :
    naiveContentAt ops (v : Int) = some (specContent (ops.take v)) ∧
    seqContentAt ops (v : Int) = some (specContent (ops.take v)) ∧
    revContentAt ops (v : Int) = some (specContent (ops.take v)) := by
  refine ⟨?_, ?_, ?_⟩
  · obtain ⟨st, hrun, hg⟩ := nrun_init ops hv
    have hg' : st.stacks = versionContents ops := hg
    rw [naiveContentAt, hrun]
    dsimp only [Option.bind]
    rw [hg']
    exact pyGet_versionContents ops v hvle
  · rw [seqContentAt, srun_init]
    exact sread_version_ok ops hv v
  · obtain ⟨st, hrun, hg⟩ := rrun_init ops hv
    rw [revContentAt, hrun]
    dsimp only
    rw [read_version_ok ops st (v : Int) hv hg (by omega) (by omega)]
    dsimp only
    have htn : ((v : Int)).toNat = v := by omega
    rw [htn]

/-- C1 witness: the script push 1; pop; push 2 read at version 2. -/
theorem claim_C1_equivalence_witness :
    naiveContentAt [Op.push 1, Op.pop, Op.push 2] (2 : Nat) =
      some (specContent ([Op.push 1, Op.pop, Op.push 2].take 2)) ∧
    seqContentAt [Op.push 1, Op.pop, Op.push 2] (2 : Nat) =
      some (specContent ([Op.push 1, Op.pop, Op.push 2].take 2)) ∧
    revContentAt [Op.push 1, Op.pop, Op.push 2] (2 : Nat) =
      some (specContent ([Op.push 1, Op.pop, Op.push 2].take 2)) :=
  claim_C1_equivalence [Op.push 1, Op.pop, Op.push 2] (by decide) 2 (by decide)

/-- C2: the driver scenario push 1; push 2; push 3; pop; pop; push 7 yields
contents [], [1], [1,2], [1,2,3], [1,2], [1], [1,7] for versions 0..6, and on
the reversible design reading versions 0..6 ascending and then 6..0 descending
reproduces exactly this sequence of contents in both directions. -/
theorem claim_C2_scenario :
    versionContents scenarioOps = expectedContents ∧
    revScenarioReads = some (expectedContents, expectedContents.reverse) := by
  constructor
  · decide
  · decide

/-- C3: round-trip law for the reversible design: for every logged index i,
applying the stored forward operation to content(i) and then its stored
inverse yields content(i) again exactly; moreover the inverse of a Push is
Pop, and the inverse of a Pop is Push of the value on top of the content when
the Pop was recorded. -/
theorem claim_C3_round_trip (ops : List Op) (hv : validOps ops = true) (i : Nat)
    (hi : i < ops.length) :
    ∃ (st : ReversibleSequenceStack) (entry : Op × Op),
      ReversibleSequenceStack.run ReversibleSequenceStack.init ops = .ok st ∧
      pyGet st.sequence (i : Int) = some entry ∧
      (applyOp entry.1 (specContent (ops.take i))).bind (applyOp entry.2) =
        some (specContent (ops.take i)) ∧
      (∀ x : Int, entry.1 = Op.push x → entry.2 = Op.pop) ∧
      (entry.1 = Op.pop →
        entry.2 = Op.push ((specContent (ops.take i)).getLast?.getD 0)) := by
  obtain ⟨st, hrun, hg⟩ := rrun_init ops hv
  refine ⟨st, pairAt (specContent (ops.take i)) ops[i], hrun, ?_, ?_, ?_, ?_⟩
  · rw [hg.1]
    exact idealLog_pyGet ops i hi
  · rw [pairAt_fst, applyOp_step ops hv i hi]
    show applyOp (pairAt (specContent (ops.take i)) ops[i]).2
      (specContent (ops.take (i + 1))) = some (specContent (ops.take i))
    exact applyOp_inv_step ops hv i hi
  · intro x hx
    have hop : ops[i] = Op.push x := by
      rw [← pairAt_fst (specContent (ops.take i)) ops[i]]
      exact hx
    show (pairAt (specContent (ops.take i)) ops[i]).2 = Op.pop
    rw [hop]
    rfl
  · intro hp
    have hop : ops[i] = Op.pop := by
      rw [← pairAt_fst (specContent (ops.take i)) ops[i]]
      exact hp
    show (pairAt (specContent (ops.take i)) ops[i]).2 = _
    rw [hop]
    rfl

/-- C3 witness: the script push 1; pop at logged index 1 (the pop). -/
theorem claim_C3_round_trip_witness :
    ∃ (st : ReversibleSequenceStack) (entry : Op × Op),
      ReversibleSequenceStack.run ReversibleSequenceStack.init [Op.push 1, Op.pop] =
        .ok st ∧
      pyGet st.sequence ((1 : Nat) : Int) = some entry ∧
      (applyOp entry.1 (specContent ([Op.push 1, Op.pop].take 1))).bind
        (applyOp entry.2) = some (specContent ([Op.push 1, Op.pop].take 1)) ∧
      (∀ x : Int, entry.1 = Op.push x → entry.2 = Op.pop) ∧
      (entry.1 = Op.pop →
        entry.2 = Op.push ((specContent ([Op.push 1, Op.pop].take 1)).getLast?.getD 0)) :=
  claim_C3_round_trip [Op.push 1, Op.pop] (by decide) 1 (by decide)

/-- C4: cursor correctness for the reversible design: after a valid script the
post-run state satisfies the cursor invariant, and read_version(v) with
0 ≤ v ≤ latest returns content(v), leaves the cursor version at v with that
content cached, in agreement with an independent full replay of the first v
log entries from the empty state. -/
theorem claim_C4_cursor (ops : List Op) (hv : validOps ops = true) (v : Int)
    (h0 : 0 ≤ v) (hle : v ≤ (ops.length : Int)) :
    ∃ st st' : ReversibleSequenceStack,
      ReversibleSequenceStack.run ReversibleSequenceStack.init ops = .ok st ∧
      RGood ops st ∧
      st.read_version v = .ok (specContent (ops.take v.toNat), st') ∧
      st'.version = v ∧
      st'.stack = specContent (ops.take v.toNat) ∧
      replayOps (ops.take v.toNat) [] = some (specContent (ops.take v.toNat)) := by
  obtain ⟨st, hrun, hg⟩ := rrun_init ops hv
  refine ⟨st, ⟨st.sequence, specContent (ops.take v.toNat), v⟩, hrun, hg, ?_, rfl, rfl, ?_⟩
  · exact read_version_ok ops st v hv hg h0 hle
  · exact replayOps_valid _ [] (validOps_take ops hv v.toNat)

/-- C4 witness: the script push 1; pop read at version 1. -/
theorem claim_C4_cursor_witness :
    ∃ st st' : ReversibleSequenceStack,
      ReversibleSequenceStack.run ReversibleSequenceStack.init [Op.push 1, Op.pop] =
        .ok st ∧
      RGood [Op.push 1, Op.pop] st ∧
      st.read_version 1 = .ok (specContent ([Op.push 1, Op.pop].take (1 : Int).toNat), st') ∧
      st'.version = 1 ∧
      st'.stack = specContent ([Op.push 1, Op.pop].take (1 : Int).toNat) ∧
      replayOps ([Op.push 1, Op.pop].take (1 : Int).toNat) [] =
        some (specContent ([Op.push 1, Op.pop].take (1 : Int).toNat)) :=
  claim_C4_cursor [Op.push 1, Op.pop] (by decide) 1 (by decide) (by decide)

/-- C5 counterexample: reading a version outside [0, latest] does not
uniformly fail: after push(1) (latest = 1), the sequence design's
read_version(2) returns [1] without error, and the naive design returns the
latest content for version -1. -/
theorem claim_C5_counterexample :
    seqContentAt [Op.push 1] 2 = some [1] ∧
    naiveContentAt [Op.push 1] (-1) = some [1] := by decide

/-- C5 amended: for v > latest the naive and reversible designs fail with an
IndexError while the sequence design silently returns the content of the
latest version (the full replay); negative versions are not rejected but
interpreted by Python's indexing and slicing conventions. -/
theorem claim_C5_version_range (ops : List Op) (hv : validOps ops = true) (v : Int)
    (hgt : (ops.length : Int) < v) :
    naiveContentAt ops v = none ∧
    seqContentAt ops v = some (specContent ops) ∧
    revContentAt ops v = none := by
  refine ⟨?_, ?_, ?_⟩
  · obtain ⟨st, hrun, hg⟩ := nrun_init ops hv
    have hg' : st.stacks = versionContents ops := hg
    rw [naiveContentAt, hrun]
    dsimp only [Option.bind]
    rw [hg', pyGet_none_iff]
    left
    have hlen : (versionContents ops).length = ops.length + 1 := by simp [versionContents]
    rw [hlen]
    omega
  · rw [seqContentAt, srun_init, SequenceStack.read_version]
    show replayOps (pySliceTo ops v) [] = _
    rw [pySliceTo_of_length_le ops v (by omega)]
    exact replayOps_valid ops [] hv
  · obtain ⟨st, hrun, hg⟩ := rrun_init ops hv
    rw [revContentAt, hrun]
    dsimp only
    rw [read_version_overflow ops st v hv hg hgt]

/-- C5 witness: the script push 1 read at version 2 (> latest = 1). -/
theorem claim_C5_version_range_witness :
    naiveContentAt [Op.push 1] 2 = none ∧
    seqContentAt [Op.push 1] 2 = some (specContent [Op.push 1]) ∧
    revContentAt [Op.push 1] 2 = none :=
  claim_C5_version_range [Op.push 1] (by decide) 2 (by decide)

/-- C6 counterexample: SequenceStack.pop on an empty stack does not fail and
is not atomic in the claimed sense: called on a fresh (empty) stack it
appends a Pop to the log unconditionally, growing latest from 0 to 1. -/
theorem claim_C6_counterexample :
    SequenceStack.pop ⟨[]⟩ = (none, ⟨[Op.pop]⟩) ∧
    (SequenceStack.pop ⟨[]⟩).2.sequence.length = 1 := by decide

/-- C6 amended: pop on an empty latest content fails without changing latest
or appending on the naive and reversible designs (through the IndexError of
the underlying removal, not a dedicated EmptyStack check), but on the
sequence design pop never checks emptiness: it appends the Pop to the log and
latest grows, the failure being deferred to read time. -/
theorem claim_C6_pop_empty (ops : List Op) (hv : validOps ops = true)
    (hempty : specContent ops = []) :
    ∃ (nst : NaiveStack) (rst : ReversibleSequenceStack),
      NaiveStack.run NaiveStack.init ops = some nst ∧
      nst.pop = none ∧
      ReversibleSequenceStack.run ReversibleSequenceStack.init ops = .ok rst ∧
      rst.pop = .error (PyErr.indexError, ⟨rst.sequence, [], (ops.length : Int)⟩) ∧
      (SequenceStack.run SequenceStack.init ops).pop = (none, ⟨ops ++ [Op.pop]⟩) := by
  obtain ⟨nst, hnrun, hng⟩ := nrun_init ops hv
  obtain ⟨rst, hrrun, hrg⟩ := rrun_init ops hv
  refine ⟨nst, rst, hnrun, ?_, hrrun, ?_, ?_⟩
  · have hng' : nst.stacks = versionContents ops := hng
    rw [NaiveStack.pop, hng', pyGet_neg_one, getLast?_versionContents]
    dsimp only
    rw [hempty]
    rfl
  · rw [ReversibleSequenceStack.pop]
    have hlen : ((rst.sequence.length : Nat) : Int) = (ops.length : Int) := by
      rw [hrg.1, length_idealLog]
    rw [hlen, read_version_ok ops rst (ops.length : Int) hv hrg (by omega) (by omega)]
    dsimp only
    have htn : ((ops.length : Int)).toNat = ops.length := by omega
    rw [htn, List.take_length, hempty]
    rfl
  · rw [srun_init]
    rfl

/-- C6 witness: the empty script (latest content is empty). -/
theorem claim_C6_pop_empty_witness :
    ∃ (nst : NaiveStack) (rst : ReversibleSequenceStack),
      NaiveStack.run NaiveStack.init [] = some nst ∧
      nst.pop = none ∧
      ReversibleSequenceStack.run ReversibleSequenceStack.init [] = .ok rst ∧
      rst.pop = .error (PyErr.indexError,
        ⟨rst.sequence, [], (([] : List Op).length : Int)⟩) ∧
      (SequenceStack.run SequenceStack.init []).pop = (none, ⟨[] ++ [Op.pop]⟩) :=
  claim_C6_pop_empty [] (by decide) (by decide)

/-- C7 counterexample: a successful pop does not return the removed value on
every design: after push(1), the sequence design's pop returns None (Python's
implicit return), not the removed value. -/
theorem claim_C7_counterexample :
    ((SequenceStack.run SequenceStack.init [Op.push 1]).pop).1 = none := by decide

/-- C7 amended: a successful pop (latest content non-empty) returns the
removed value (the top of the latest content) only on the naive design; the
sequence and reversible designs' pop return None. -/
theorem claim_C7_pop_value (ops : List Op) (hv : validOps ops = true)
    (hne : specContent ops ≠ []) :
    ∃ (nst nst' : NaiveStack) (rst rst' : ReversibleSequenceStack),
      NaiveStack.run NaiveStack.init ops = some nst ∧
      nst.pop = some ((specContent ops).getLast hne, nst') ∧
      ((SequenceStack.run SequenceStack.init ops).pop).1 = none ∧
      ReversibleSequenceStack.run ReversibleSequenceStack.init ops = .ok rst ∧
      rst.pop = .ok (none, rst') := by
  have hvp : validOps (ops ++ [Op.pop]) = true := valid_snoc_pop_of ops hv hne
  obtain ⟨nst, hnrun, hng⟩ := nrun_init ops hv
  obtain ⟨rst, hrrun, hrg⟩ := rrun_init ops hv
  obtain ⟨hrpop, _⟩ := rpop_ok ops rst hvp hrg
  exact ⟨nst, _, rst, _, hnrun, npop_ok ops nst hne hng, by rw [srun_init] ; rfl,
    hrrun, hrpop⟩

/-- C7 witness: the script push 5 (removed value 5). -/
theorem claim_C7_pop_value_witness :
    ∃ (nst nst' : NaiveStack) (rst rst' : ReversibleSequenceStack),
      NaiveStack.run NaiveStack.init [Op.push 5] = some nst ∧
      nst.pop = some ((specContent [Op.push 5]).getLast (by decide), nst') ∧
      ((SequenceStack.run SequenceStack.init [Op.push 5]).pop).1 = none ∧
      ReversibleSequenceStack.run ReversibleSequenceStack.init [Op.push 5] = .ok rst ∧
      rst.pop = .ok (none, rst') :=
  claim_C7_pop_value [Op.push 5] (by decide) (by decide)

/-- C8 counterexample: with a valid version, a negative index does not fail:
after push(1), read(1, -1) on the naive design returns 1 (Python counts
negative indexes from the end) instead of raising. -/
theorem claim_C8_counterexample :
    (NaiveStack.run NaiveStack.init [Op.push 1]).bind (fun st => st.read 1 (-1)) =
      some 1 := by decide

/-- C8 amended: with a valid version v, read(v, index) on each design indexes
content(v) with Python index semantics (it agrees with pyGet), and pyGet
fails exactly when index ≥ length or index < -length; negative indexes within
range address elements from the end. -/
theorem claim_C8_read_index (ops : List Op) (hv : validOps ops = true) (v : Nat)
    (hvle : v ≤ ops.length) (i : Int) :
    (∃ nst, NaiveStack.run NaiveStack.init ops = some nst ∧
      nst.read (v : Int) i = pyGet (specContent (ops.take v)) i) ∧
    (SequenceStack.run SequenceStack.init ops).read (v : Int) i =
      pyGet (specContent (ops.take v)) i ∧
    (∃ rst st', ReversibleSequenceStack.run ReversibleSequenceStack.init ops = .ok rst ∧
      rst.read (v : Int) i = (pyGet (specContent (ops.take v)) i).elim
        (.error (PyErr.indexError, st')) (fun x => .ok (x, st'))) ∧
    (pyGet (specContent (ops.take v)) i = none ↔
      ((specContent (ops.take v)).length : Int) ≤ i ∨
        i < -((specContent (ops.take v)).length : Int)) := by
  refine ⟨?_, ?_, ?_, pyGet_none_iff _ i⟩
  · obtain ⟨st, hrun, hg⟩ := nrun_init ops hv
    have hg' : st.stacks = versionContents ops := hg
    refine ⟨st, hrun, ?_⟩
    rw [NaiveStack.read, hg', pyGet_versionContents ops v hvle]
    rfl
  · rw [srun_init, SequenceStack.read, sread_version_ok ops hv v]
    rfl
  · obtain ⟨st, hrun, hg⟩ := rrun_init ops hv
    refine ⟨st, ⟨st.sequence, specContent (ops.take v), (v : Int)⟩, hrun, ?_⟩
    rw [ReversibleSequenceStack.read,
      read_version_ok ops st (v : Int) hv hg (by omega) (by omega)]
    dsimp only
    have htn : ((v : Int)).toNat = v := by omega
    rw [htn]
    cases pyGet (specContent (ops.take v)) i <;> rfl

/-- C8 witness: the script push 1, version 1, index -1 (in range from the
end, so the read succeeds). -/
theorem claim_C8_read_index_witness :
    (∃ nst, NaiveStack.run NaiveStack.init [Op.push 1] = some nst ∧
      nst.read ((1 : Nat) : Int) (-1) = pyGet (specContent ([Op.push 1].take 1)) (-1)) ∧
    (SequenceStack.run SequenceStack.init [Op.push 1]).read ((1 : Nat) : Int) (-1) =
      pyGet (specContent ([Op.push 1].take 1)) (-1) ∧
    (∃ rst st', ReversibleSequenceStack.run ReversibleSequenceStack.init [Op.push 1] =
        .ok rst ∧
      rst.read ((1 : Nat) : Int) (-1) = (pyGet (specContent ([Op.push 1].take 1)) (-1)).elim
        (.error (PyErr.indexError, st')) (fun x => .ok (x, st'))) ∧
    (pyGet (specContent ([Op.push 1].take 1)) (-1) = none ↔
      ((specContent ([Op.push 1].take 1)).length : Int) ≤ -1 ∨
        (-1 : Int) < -((specContent ([Op.push 1].take 1)).length : Int)) :=
  claim_C8_read_index [Op.push 1] (by decide) 1 (by decide) (-1)

/-- C9 counterexample: after push(1) then pop(), the reversible design's
cursor version is 1 while latest (the log length) is 2: pop leaves the cursor
at the pre-pop latest, not at the new latest. -/
theorem claim_C9_counterexample :
    (revPopAfter [Op.push 1]).map (fun st => (st.version, st.sequence.length)) =
      some (1, 2) := by decide

/-- C9 amended: a successful pop on the reversible design first materializes
the pre-pop latest version via read_version (moving the cursor there) and
then appends the log entry, so after pop returns the cursor version equals
the previous latest, which is the new latest minus 1. -/
theorem claim_C9_pop_cursor (ops : List Op) (hv : validOps ops = true)
    (hne : specContent ops ≠ []) :
    ∃ rst rst' : ReversibleSequenceStack,
      ReversibleSequenceStack.run ReversibleSequenceStack.init ops = .ok rst ∧
      rst.pop = .ok (none, rst') ∧
      rst'.version = (ops.length : Int) ∧
      rst'.sequence.length = ops.length + 1 := by
  have hvp : validOps (ops ++ [Op.pop]) = true := valid_snoc_pop_of ops hv hne
  obtain ⟨rst, hrrun, hrg⟩ := rrun_init ops hv
  obtain ⟨hrpop, _⟩ := rpop_ok ops rst hvp hrg
  refine ⟨rst, _, hrrun, hrpop, rfl, ?_⟩
  show (idealLog (ops ++ [Op.pop])).length = ops.length + 1
  rw [length_idealLog]
  simp

/-- C9 witness: the script push 1 followed by one pop. -/
theorem claim_C9_pop_cursor_witness :
    ∃ rst rst' : ReversibleSequenceStack,
      ReversibleSequenceStack.run ReversibleSequenceStack.init [Op.push 1] = .ok rst ∧
      rst.pop = .ok (none, rst') ∧
      rst'.version = (([Op.push 1] : List Op).length : Int) ∧
      rst'.sequence.length = ([Op.push 1] : List Op).length + 1 :=
  claim_C9_pop_cursor [Op.push 1] (by decide) (by decide)

/-- C10: read_version(v) terminates for 0 ≤ v ≤ latest: an iteration budget
equal to the distance |cursor - v| already completes the walk (each loop
iteration moves the cursor one step toward v), and the walk ends with the
cursor exactly at v, returning the cached content. -/
theorem claim_C10_termination (ops : List Op) (hv : validOps ops = true) (v : Int)
    (h0 : 0 ≤ v) (hle : v ≤ (ops.length : Int)) :
    ∃ st st' : ReversibleSequenceStack,
      ReversibleSequenceStack.run ReversibleSequenceStack.init ops = .ok st ∧
      read_versionF ((st.version - v).natAbs) st v = some (st.read_version v) ∧
      st.read_version v = .ok (specContent (ops.take v.toNat), st') ∧
      st'.version = v := by
  obtain ⟨st, hrun, hg⟩ := rrun_init ops hv
  refine ⟨st, ⟨st.sequence, specContent (ops.take v.toNat), v⟩, hrun, ?_, ?_, rfl⟩
  · exact read_versionF_ok ops st v hv hg h0 hle
  · exact read_version_ok ops st v hv hg h0 hle

/-- C10 witness: the script push 1; pop; push 2 (cursor ends at version 1)
read at version 3. -/
theorem claim_C10_termination_witness :
    ∃ st st' : ReversibleSequenceStack,
      ReversibleSequenceStack.run ReversibleSequenceStack.init
        [Op.push 1, Op.pop, Op.push 2] = .ok st ∧
      read_versionF ((st.version - 3).natAbs) st 3 = some (st.read_version 3) ∧
      st.read_version 3 = .ok (specContent ([Op.push 1, Op.pop, Op.push 2].take
        (3 : Int).toNat), st') ∧
      st'.version = 3 :=
  claim_C10_termination [Op.push 1, Op.pop, Op.push 2] (by decide) 3 (by decide) (by decide)

end Persist
